import Mathlib

/-!
Verification of the superdense-coding notebook
(`src/jupyter/Superdense Coding (with Qiskit).ipynb`).

The notebook builds Qiskit circuits from the gates H, X, Z and CNOT, plus
barriers and a final `measure_all`, and simulates them on a noiseless
shot-based backend.  We embed circuits as lists of gate instructions and give
them their standard semantics: a state on `n` qubits is an amplitude for each
computational-basis index below `2 ^ n`.  All gates of the notebook are real
matrices, so amplitudes stay real; to keep everything exactly computable we
represent the Hadamard gate by the integer matrix `[[1, 1], [1, -1]]`
(i.e. `√2 · H`) and compute measurement probabilities with the Born rule
normalised by the total squared amplitude, which is invariant under that
global scaling.
-/

/-- Gate instructions appearing in the notebook's circuits.  Qubits are
numbered as in Qiskit: register `qa` occupies qubits `0..N-1`, register `qb`
occupies `N..2N-1`. -/
inductive Gate where
  | h (q : Nat)
  | x (q : Nat)
  | z (q : Nat)
  | cx (c t : Nat)
  | barrier
  | measureAll
deriving DecidableEq, Repr

/-- State on basis indices: amplitude of basis vector `i` (integer amplitudes;
the Hadamard is represented unnormalised, see the file header). -/
def QState : Type := Nat → ℤ

/-- The all-zeros initial state of a fresh Qiskit circuit. -/
def initState : QState := fun i => if i = 0 then 1 else 0

/-- Apply one gate to a state.  `barrier` and `measure_all` do not change
amplitudes (measurement is accounted for by the Born rule at the end). -/
def applyGate (g : Gate) (v : QState) : QState :=
  match g with
  | .h q => fun i =>
      if i.testBit q then v (i ^^^ 2 ^ q) - v i else v i + v (i ^^^ 2 ^ q)
  | .x q => fun i => v (i ^^^ 2 ^ q)
  | .z q => fun i => if i.testBit q then -(v i) else v i
  | .cx c t => fun i => if i.testBit c then v (i ^^^ 2 ^ t) else v i
  | .barrier => v
  | .measureAll => v

/-- Run a gate list (in temporal order) from a starting state. -/
def runGates (gates : List Gate) (v : QState) : QState :=
  gates.foldl (fun w g => applyGate g w) v

/-- Final amplitudes of a circuit started from `|0…0⟩`. -/
def finalAmp (gates : List Gate) : QState := runGates gates initState

/-- Total squared amplitude of a state on `n` qubits. -/
def totalSq (n : Nat) (v : QState) : ℤ :=
  (((List.range (2 ^ n)).map fun j => (v j) ^ 2)).sum

/-- Born-rule probability of measuring basis outcome `o` on the final state
of a circuit on `n` qubits, normalised by the total squared amplitude so that
the unnormalised Hadamard convention is harmless. -/
def outcomeProb (n : Nat) (gates : List Gate) (o : Nat) : ℚ :=
  ((finalAmp gates o) ^ 2 : ℤ) / ((totalSq n (finalAmp gates)) : ℤ)

/-! Embeddings of the notebook's circuit-building functions follow. -/

/-- Model of `prepare_bell_state(circuit, a, b)`: appends `circuit.h(a)` then
`circuit.cx(a, b)`. -/
def prepare_bell_state (circuit : List Gate) (a b : Nat) : List Gate :=
  circuit ++ [.h a, .cx a b]

/-- Model of `encode_bits(circuit, q, b0, b1)`: appends `circuit.x(q)` if `b0`, then
`circuit.z(q)` if `b1`. -/
def encode_bits (circuit : List Gate) (q : Nat) (b0 b1 : Bool) : List Gate :=
  (if b0 then circuit ++ [.x q] else circuit) ++ (if b1 then [.z q] else [])

/-- Model of `decode_bits(circuit, q_a, q_b)`: appends `circuit.cx(q_a, q_b)` then
`circuit.h(q_a)`. -/
def decode_bits (circuit : List Gate) (q_a q_b : Nat) : List Gate :=
  circuit ++ [.cx q_a q_b, .h q_a]

/-- The two-qubit circuit acting on one Bell pair, exactly as
`superdense_coder` applies it to the pair `(q_a, q_b)`: Bell preparation,
then `encode_bits` on Alice's qubit, then `decode_bits`.  Qubit `0` is
carrier A, qubit `1` is carrier B. -/
def pairCircuit (b0 b1 : Bool) : List Gate :=
  decode_bits (encode_bits (prepare_bell_state [] 0 1) 0 b0 b1) 0 1

/-- Basis outcome reconstructing `(b0, b1)` after decoding: carrier A
(qubit 0) reads out `b1` and carrier B (qubit 1) reads out `b0`. -/
def reconstructOutcome (b0 b1 : Bool) : Nat :=
  (if b1 then 1 else 0) + 2 * (if b0 then 1 else 0)

/-! Embedding of `superdense_coder`. -/

/-- Python exceptions that `superdense_coder` can raise: the failed
`assert(len(bitstring) % 2 == 0)`, and the `ValueError` raised by `int(i, 2)`
on a character that is not a base-2 digit. -/
inductive PyErr where
  | assertionError
  | valueError (c : Char)
deriving DecidableEq, Repr

/-- Decidable equality of `Except` results, for evaluating the model on
concrete inputs. -/
instance {ε α : Type} [DecidableEq ε] [DecidableEq α] :
    DecidableEq (Except ε α) := fun x y =>
  match x, y with
  | .ok a, .ok b =>
      if h : a = b then isTrue (by rw [h])
      else isFalse fun hh => h (by cases hh; rfl)
  | .ok _, .error _ => isFalse fun hh => Except.noConfusion hh
  | .error _, .ok _ => isFalse fun hh => Except.noConfusion hh
  | .error e, .error f =>
      if h : e = f then isTrue (by rw [h])
      else isFalse fun hh => h (by cases hh; rfl)

/-- Code points of the Unicode decimal digits of numeric value 0, one per
decimal-digit script.  CPython's `int` parses any Unicode decimal digit, not
just ASCII: for example Arabic-Indic `'٠'` (U+0660) and fullwidth `'０'`
(U+FF10) are accepted as 0. -/
def pyDigitZeroCodes : List Nat :=
  [0x30, 0x660, 0x6f0, 0x7c0, 0x966, 0x9e6, 0xa66, 0xae6, 0xb66, 0xbe6,
    0xc66, 0xce6, 0xd66, 0xde6, 0xe50, 0xed0, 0xf20, 0x1040, 0x1090, 0x17e0,
    0x1810, 0x1946, 0x19d0, 0x1a80, 0x1a90, 0x1b50, 0x1bb0, 0x1c40, 0x1c50,
    0xa620, 0xa8d0, 0xa900, 0xa9d0, 0xa9f0, 0xaa50, 0xabf0, 0xff10, 0x104a0,
    0x10d30, 0x11066, 0x110f0, 0x11136, 0x111d0, 0x112f0, 0x11450, 0x114d0,
    0x11650, 0x116c0, 0x11730, 0x118e0, 0x11950, 0x11c50, 0x11d50, 0x11da0,
    0x16a60, 0x16ac0, 0x16b50, 0x1d7ce, 0x1d7d8, 0x1d7e2, 0x1d7ec, 0x1d7f6,
    0x1e140, 0x1e2f0, 0x1e950, 0x1fbf0]

/-- Code points of the Unicode decimal digits of numeric value 1: the code
point following the value-0 digit of each script (e.g. Arabic-Indic `'١'`
U+0661). -/
def pyDigitOneCodes : List Nat :=
  [0x31, 0x661, 0x6f1, 0x7c1, 0x967, 0x9e7, 0xa67, 0xae7, 0xb67, 0xbe7,
    0xc67, 0xce7, 0xd67, 0xde7, 0xe51, 0xed1, 0xf21, 0x1041, 0x1091, 0x17e1,
    0x1811, 0x1947, 0x19d1, 0x1a81, 0x1a91, 0x1b51, 0x1bb1, 0x1c41, 0x1c51,
    0xa621, 0xa8d1, 0xa901, 0xa9d1, 0xa9f1, 0xaa51, 0xabf1, 0xff11, 0x104a1,
    0x10d31, 0x11067, 0x110f1, 0x11137, 0x111d1, 0x112f1, 0x11451, 0x114d1,
    0x11651, 0x116c1, 0x11731, 0x118e1, 0x11951, 0x11c51, 0x11d51, 0x11da1,
    0x16a61, 0x16ac1, 0x16b51, 0x1d7cf, 0x1d7d9, 0x1d7e3, 0x1d7ed, 0x1d7f7,
    0x1e141, 0x1e2f1, 0x1e951, 0x1fbf1]

/-- Model of `int(i, 2)` applied to the single character `i`: CPython accepts
any Unicode decimal digit whose value is below the base, so a decimal digit
of value 0 converts to 0, a decimal digit of value 1 converts to 1, and
every other character raises `ValueError`. -/
def int2 (c : Char) : Except PyErr Nat :=
  if c.toNat ∈ pyDigitZeroCodes then .ok 0
  else if c.toNat ∈ pyDigitOneCodes then .ok 1
  else .error (.valueError c)

/-- Model of `np.array(bitstring).reshape(N, 2)`: the row-major list of consecutive
pairs of the bit list. -/
def reshapePairs : List Nat → List (Nat × Nat)
  | a :: b :: rest => (a, b) :: reshapePairs rest
  | _ => []

/-- A built circuit: the total number of qubits (`qa` is qubits `0..N-1`,
`qb` is qubits `N..2N-1`) and the gate list in order of application. -/
structure Circuit where
  nQubits : Nat
  gates : List Gate
deriving DecidableEq, Repr

/-- Model of `superdense_coder(bitstring)`: asserts that the length is even, converts
each character with `int(i, 2)`, reshapes into `N` bit pairs, then builds the
circuit: a Bell preparation on each pair `(i, i+N)`, a barrier, `encode_bits`
on Alice's qubit `i` for each bit pair (a bit is "true" when its integer
value is nonzero), a barrier, `decode_bits` on each pair, and `measure_all`. -/
def superdense_coder (bitstring : List Char) : Except PyErr Circuit :=
  if bitstring.length % 2 ≠ 0 then .error .assertionError else do
    let bits ← bitstring.mapM int2
    let N := bits.length / 2
    let bit_arr := reshapePairs bits
    let c1 := (List.range N).foldl (fun c i => prepare_bell_state c i (i + N)) []
    let c2 := c1 ++ [.barrier]
    let c3 := bit_arr.enum.foldl
      (fun c p => encode_bits c p.1 (p.2.1 != 0) (p.2.2 != 0)) c2
    let c4 := c3 ++ [.barrier]
    let c5 := (List.range N).foldl (fun c i => decode_bits c i (i + N)) c4
    .ok ⟨2 * N, c5 ++ [.measureAll]⟩

/-! Embedding of `canonical_bitstring` and of the simulation results. -/

/-- Model of `canonical_bitstring(bs)`: for each pair index `i < N = len(bs)//2`,
appends `bs[i+N]` then `bs[i]`.  (The `getD` default is never reached: the
accessed indices are below the length whenever the list is nonempty.) -/
def canonical_bitstring (bs : List Char) : List Char :=
  let N := bs.length / 2
  (List.range N).flatMap fun i => [bs.getD (i + N) 'A', bs.getD i 'A']

/-- The reversed counts key `bs[::-1]` fed to `canonical_bitstring`: Qiskit
writes measured bitstrings with qubit 0 rightmost, so after the reversal
character `j` is the measured value of qubit `j` of basis outcome `o`. -/
def measuredChars (n o : Nat) : List Char :=
  (List.range n).map fun j => if o.testBit j then '1' else '0'

/-- Noiseless model of the deterministic content of
`simulate_circuit(circuit)`: the probability that a single shot is recorded
in the returned mapping under the canonical key `key`, i.e. the sum of the
Born probabilities of all basis outcomes whose reversed, canonicalised
bitstring equals `key`.  (Each of the `shots` samples lands on `key` with
this probability.) -/
def simulate_circuit (c : Circuit) (key : List Char) : ℚ :=
  (((List.range (2 ^ c.nQubits)).filter
      fun o => canonical_bitstring (measuredChars c.nQubits o) = key).map
    fun o => outcomeProb c.nQubits c.gates o).sum

/-! Model of the backend call made by `simulate_circuit`.

The notebook's simulation glue is
`counts = sim.run(tqc, n_samples).result().get_counts(circuit)`, where `sim`
is the Aer `qasm_simulator` backend.  The external backend's interface is
`run(circuits, validate=False, parameter_binds=None, **run_options)`: the
second positional parameter is `validate`, and the shot count is the
keyword-only run option `shots`, defaulting to the backend's own default of
1024 when absent. -/

/-- The arguments that `simulate_circuit(circuit, n_samples)` passes to the
backend's `run`: `n_samples` is passed positionally, so it binds to
`validate`, and no `shots` keyword is passed. -/
structure AerRunArgs where
  validate : Nat
  shots : Option Nat
deriving DecidableEq, Repr

/-- The call `sim.run(tqc, n_samples)` as made by `simulate_circuit`. -/
def simulate_circuit_run_args (n_samples : Nat) : AerRunArgs :=
  ⟨n_samples, none⟩

/-- Number of shots the backend draws for a `run` call: the `shots` run
option if given, else the backend default 1024.  The occurrence counts in the
returned counts mapping sum to this number. -/
def aer_run_shots (args : AerRunArgs) : Nat :=
  args.shots.getD 1024


/-- The inverse reindexing of `canonical_bitstring`, written from its index
mapping: output position `2 * i` holds input position `i + N` and output
position `2 * i + 1` holds input position `i`, so the inverse recovers
positions `0..N-1` from the odd output positions and positions `N..2N-1`
from the even output positions. -/
def canonical_inverse (cs : List Char) : List Char :=
  let N := cs.length / 2
  ((List.range N).map fun i => cs.getD (2 * i + 1) 'A')
    ++ ((List.range N).map fun i => cs.getD (2 * i) 'A')

/-- The index mapping of `canonical_bitstring` on a string of length `2 * N`:
output position `j` reads input position `j / 2 + N` when `j` is even and
input position `j / 2` when `j` is odd. -/
def canonicalIndex (N j : Nat) : Nat :=
  if j % 2 = 0 then j / 2 + N else j / 2

/-- The map `canonicalIndex N` as a self-map of the position set `{0, …, 2N-1}`. -/
def canonicalIndexFin (N : Nat) : Fin (2 * N) → Fin (2 * N) :=
  fun j => ⟨canonicalIndex N j.val, by
    have := j.isLt
    unfold canonicalIndex
    split <;> omega⟩

/-- The gates that one `encode_bits` call appends. -/
def encTail (q : Nat) (b0 b1 : Bool) : List Gate :=
  (if b0 then [Gate.x q] else []) ++ (if b1 then [Gate.z q] else [])

/-! Helper lemmas and the claim theorems follow. -/

/-- Evaluation rule: an outcome whose squared amplitude is the whole squared
norm has Born probability 1. -/
theorem outcomeProb_one (n : Nat) (gates : List Gate) (o : Nat)
    (h1 : (finalAmp gates o) ^ 2 = totalSq n (finalAmp gates))
    (h2 : totalSq n (finalAmp gates) ≠ 0) :
    outcomeProb n gates o = 1 := by
  unfold outcomeProb
  rw [h1]
  exact div_self (by exact_mod_cast h2)

/-- Evaluation rule: an outcome with amplitude 0 has Born probability 0. -/
theorem outcomeProb_zero (n : Nat) (gates : List Gate) (o : Nat)
    (h1 : finalAmp gates o = 0) :
    outcomeProb n gates o = 0 := by
  unfold outcomeProb
  rw [h1]
  norm_num


/-- C1: For every bit pair `(b0, b1)`, preparing the Bell resource, encoding
on carrier A, decoding, and jointly measuring in the computational basis
yields the outcome reconstructing `(b0, b1)` with probability 1 and every
other outcome with probability 0, and the canonical reordering of that
outcome's measured bitstring is exactly the characters of `b0` then `b1`. -/
theorem encode_decode_reconstructs_bits :
    ∀ b0 b1 : Bool,
      (∀ o : Fin 4, outcomeProb 2 (pairCircuit b0 b1) o.val =
        if o.val = reconstructOutcome b0 b1 then 1 else 0) ∧
      canonical_bitstring (measuredChars 2 (reconstructOutcome b0 b1)) =
        [if b0 then '1' else '0', if b1 then '1' else '0'] := by
  intro b0 b1
  refine ⟨?_, by cases b0 <;> cases b1 <;> decide⟩
  intro o
  cases b0 <;> cases b1 <;> fin_cases o <;>
    simp only [reconstructOutcome, Fin.isValue] <;> norm_num <;>
    first
      | exact outcomeProb_one 2 _ _ (by decide) (by decide)
      | exact outcomeProb_zero 2 _ _ (by decide)

/-- C5: `encode_bits` appends an `X` gate on `q` exactly when `b0` is true,
appends a `Z` gate on `q` exactly when `b1` is true, appends no other gate,
and is a no-op for `(false, false)`.  (It is a total function, so it raises
no error for boolean bit inputs.) -/
theorem encode_bits_gate_selection :
    ∀ (circuit : List Gate) (q : Nat) (b0 b1 : Bool),
      (Gate.x q ∈ (encode_bits circuit q b0 b1).drop circuit.length ↔ b0 = true) ∧
      (Gate.z q ∈ (encode_bits circuit q b0 b1).drop circuit.length ↔ b1 = true) ∧
      (∀ g ∈ (encode_bits circuit q b0 b1).drop circuit.length,
        g = Gate.x q ∨ g = Gate.z q) ∧
      encode_bits circuit q false false = circuit := by
  intro circuit q b0 b1
  have hdrop : (encode_bits circuit q b0 b1).drop circuit.length
      = (if b0 then [Gate.x q] else []) ++ (if b1 then [Gate.z q] else []) := by
    cases b0 <;> cases b1 <;>
      simp [encode_bits, List.drop_left, List.append_assoc, List.drop_length]
  rw [hdrop]
  refine ⟨?_, ?_, ?_, by simp [encode_bits]⟩ <;> cases b0 <;> cases b1 <;> simp

/-- C6: `decode_bits` leaves the existing circuit unchanged and appends
exactly two gates, in this order: the CNOT with control `q_a` (carrier A) and
target `q_b` (carrier B), then the Hadamard on `q_a`. -/
theorem decode_bits_gate_sequence :
    ∀ (circuit : List Gate) (q_a q_b : Nat),
      (decode_bits circuit q_a q_b).take circuit.length = circuit ∧
      (decode_bits circuit q_a q_b).drop circuit.length
        = [Gate.cx q_a q_b, Gate.h q_a] ∧
      (decode_bits circuit q_a q_b).length = circuit.length + 2 := by
  intro circuit q_a q_b
  refine ⟨?_, ?_, ?_⟩ <;> simp [decode_bits, List.take_left, List.drop_left]

/-- Length of the interleaving underlying `canonical_bitstring`. -/
theorem flatMap_pairs_length (N : Nat) (f g : Nat → Char) :
    ((List.range N).flatMap fun j => [f j, g j]).length = 2 * N := by
  induction N with
  | zero => simp
  | succ n ih =>
    rw [List.range_succ, List.flatMap_append, List.length_append, ih]
    simp
    omega

/-- Index evaluation of the interleaving underlying `canonical_bitstring`. -/
theorem flatMap_pairs_getD (N : Nat) (f g : Nat → Char) (d : Char) :
    ∀ i, i < N →
      ((List.range N).flatMap fun j => [f j, g j]).getD (2 * i) d = f i ∧
      ((List.range N).flatMap fun j => [f j, g j]).getD (2 * i + 1) d = g i := by
  induction N with
  | zero => intro i h; omega
  | succ n ih =>
    intro i h
    rw [List.range_succ, List.flatMap_append]
    rcases Nat.lt_or_ge i n with hi | hi
    · have h2i : 2 * i < ((List.range n).flatMap fun j => [f j, g j]).length := by
        rw [flatMap_pairs_length]; omega
      have h2i1 : 2 * i + 1 < ((List.range n).flatMap fun j => [f j, g j]).length := by
        rw [flatMap_pairs_length]; omega
      rw [List.getD_append _ _ _ _ h2i, List.getD_append _ _ _ _ h2i1]
      exact ih i hi
    · have hieq : i = n := by omega
      subst hieq
      have hlen : ((List.range i).flatMap fun j => [f j, g j]).length = 2 * i :=
        flatMap_pairs_length i f g
      rw [List.getD_append_right _ _ _ _ (by omega),
        List.getD_append_right _ _ _ _ (by omega), hlen]
      simp

/-- The two characters that `canonical_bitstring` writes for pair `i`. -/
theorem canonical_getD_pair (bs : List Char) (N i : Nat) (d : Char)
    (hlen : bs.length = 2 * N) (hi : i < N) :
    (canonical_bitstring bs).getD (2 * i) d = bs.getD (i + N) d ∧
    (canonical_bitstring bs).getD (2 * i + 1) d = bs.getD i d := by
  have hN : bs.length / 2 = N := by omega
  have base :=
    flatMap_pairs_getD N (fun j => bs.getD (j + N) 'A') (fun j => bs.getD j 'A') d i hi
  simp only [canonical_bitstring, hN]
  refine ⟨base.1.trans ?_, base.2.trans ?_⟩
  · show bs.getD (i + N) 'A' = bs.getD (i + N) d
    rw [List.getD_eq_getElem _ _ (by omega), List.getD_eq_getElem _ _ (by omega)]
  · show bs.getD i 'A' = bs.getD i d
    rw [List.getD_eq_getElem _ _ (by omega), List.getD_eq_getElem _ _ (by omega)]

/-- Note that `canonical_bitstring` preserves the length of even-length strings. -/
theorem canonical_length (bs : List Char) :
    (canonical_bitstring bs).length = 2 * (bs.length / 2) := by
  simp only [canonical_bitstring]
  exact flatMap_pairs_length _ _ _

/-- C2: `canonical_bitstring` is the pure reindexing sending the input
character at position `i + N` to output position `2 * i` and the input
character at position `i` to output position `2 * i + 1`, for every pair
index `i < N` and every input of length `2 * N`. -/
theorem canonical_bitstring_reindexes :
    ∀ (bs : List Char) (N i : Nat) (d : Char), bs.length = 2 * N → i < N →
      (canonical_bitstring bs).getD (2 * i) d = bs.getD (i + N) d ∧
      (canonical_bitstring bs).getD (2 * i + 1) d = bs.getD i d :=
  fun bs N i d hlen hi => canonical_getD_pair bs N i d hlen hi

/-- Witness for C2 at the concrete string `"0110"` and pair index `1`. -/
theorem canonical_bitstring_reindexes_witness :
    (canonical_bitstring ['0', '1', '1', '0']).getD (2 * 1) 'x'
      = ['0', '1', '1', '0'].getD (1 + 2) 'x' ∧
    (canonical_bitstring ['0', '1', '1', '0']).getD (2 * 1 + 1) 'x'
      = ['0', '1', '1', '0'].getD 1 'x' :=
  canonical_bitstring_reindexes ['0', '1', '1', '0'] 2 1 'x' (by decide) (by decide)

/-- Reading consecutive positions of `bs` is taking a prefix. -/
theorem map_getD_range_eq_take (bs : List Char) (N : Nat) (d : Char)
    (h : N ≤ bs.length) :
    ((List.range N).map fun i => bs.getD i d) = bs.take N := by
  apply List.ext_getElem
  · simp
    omega
  · intro n h1 h2
    simp only [List.getElem_map, List.getElem_range, List.getElem_take]
    rw [List.getD_eq_getElem]

/-- Reading positions `N..2N-1` of a string of length `2 * N` is dropping the
first `N`. -/
theorem map_getD_range_eq_drop (bs : List Char) (N : Nat) (d : Char)
    (h : bs.length = 2 * N) :
    ((List.range N).map fun i => bs.getD (i + N) d) = bs.drop N := by
  apply List.ext_getElem
  · simp
    omega
  · intro n h1 h2
    simp only [List.getElem_map, List.getElem_range, List.getElem_drop]
    rw [List.getD_eq_getElem _ _ (by simp at h1 ⊢; omega)]
    congr 1
    omega

/-- C3: on strings of even length `2 * N`, `canonical_bitstring` reads input
position `canonicalIndex N j` into output position `j`, that index mapping is
a permutation of the positions `{0, …, 2N-1}`, and composing with the inverse
reindexing round-trips every even-length string to itself. -/
theorem canonical_bitstring_bijection :
    ∀ (N : Nat) (bs : List Char), bs.length = 2 * N →
      canonical_inverse (canonical_bitstring bs) = bs ∧
      (∀ (j : Nat) (d : Char), j < 2 * N →
        (canonical_bitstring bs).getD j d = bs.getD (canonicalIndex N j) d) ∧
      Function.Bijective (canonicalIndexFin N) := by
  intro N bs hlen
  have hclen : (canonical_bitstring bs).length = 2 * N := by
    rw [canonical_length, hlen]
    omega
  have hpair := fun (i : Nat) (d : Char) (hi : i < N) =>
    canonical_getD_pair bs N i d hlen hi
  refine ⟨?_, ?_, ?_⟩
  · have hN2 : (canonical_bitstring bs).length / 2 = N := by omega
    have h1 : ((List.range N).map
        fun i => (canonical_bitstring bs).getD (2 * i + 1) 'A') = bs.take N := by
      rw [List.map_congr_left
        (fun i hi => (hpair i 'A' (by simp at hi; omega)).2)]
      exact map_getD_range_eq_take bs N 'A' (by omega)
    have h2 : ((List.range N).map
        fun i => (canonical_bitstring bs).getD (2 * i) 'A') = bs.drop N := by
      rw [List.map_congr_left
        (fun i hi => (hpair i 'A' (by simp at hi; omega)).1)]
      exact map_getD_range_eq_drop bs N 'A' hlen
    simp only [canonical_inverse, hN2]
    rw [h1, h2, List.take_append_drop]
  · intro j d hj
    rcases Nat.even_or_odd j with ⟨i, rfl⟩ | ⟨i, rfl⟩
    · have hi : i < N := by omega
      have hidx : canonicalIndex N (i + i) = i + N := by
        unfold canonicalIndex
        split <;> omega
      rw [hidx, show i + i = 2 * i by omega]
      exact (hpair i d hi).1
    · have hi : i < N := by omega
      have hidx : canonicalIndex N (2 * i + 1) = i := by
        unfold canonicalIndex
        split <;> omega
      rw [hidx]
      exact (hpair i d hi).2
  · have hinj : Function.Injective (canonicalIndexFin N) := by
      intro a b hab
      have ha := a.isLt
      have hb := b.isLt
      have h := congrArg Fin.val hab
      simp only [canonicalIndexFin] at h
      unfold canonicalIndex at h
      apply Fin.ext
      split_ifs at h <;> omega
    exact Finite.injective_iff_bijective.mp hinj

/-- Witness for C3 at the concrete even-length string `"0110"` (`N = 2`). -/
theorem canonical_bitstring_bijection_witness :
    canonical_inverse (canonical_bitstring ['0', '1', '1', '0'])
      = ['0', '1', '1', '0'] ∧
    (∀ (j : Nat) (d : Char), j < 2 * 2 →
      (canonical_bitstring ['0', '1', '1', '0']).getD j d
        = ['0', '1', '1', '0'].getD (canonicalIndex 2 j) d) ∧
    Function.Bijective (canonicalIndexFin 2) :=
  canonical_bitstring_bijection 2 ['0', '1', '1', '0'] (by decide)

/-! Error behaviour of the bit conversion. -/

/-- Classification: `int2` either succeeds, or it fails with the
`ValueError` naming the rejected character. -/
theorem int2_ok_or_error (a : Char) :
    (∃ v, int2 a = .ok v) ∨ int2 a = .error (.valueError a) := by
  unfold int2
  split_ifs
  · exact .inl ⟨0, rfl⟩
  · exact .inl ⟨1, rfl⟩
  · exact .inr rfl

/-- A character the conversion rejects is in particular neither `'0'` nor
`'1'` (both of which it accepts). -/
theorem int2_error_not_binary (c : Char) (e : PyErr)
    (h : int2 c = .error e) : c ≠ '0' ∧ c ≠ '1' := by
  constructor <;> rintro rfl
  · rw [show int2 '0' = Except.ok 0 from by decide] at h
    exact Except.noConfusion h
  · rw [show int2 '1' = Except.ok 1 from by decide] at h
    exact Except.noConfusion h

/-- The per-character conversion only ever fails with a `ValueError` naming
a character of the input. -/
theorem mapM_int2_error (l : List Char) (e : PyErr) (h : l.mapM int2 = .error e) :
    ∃ c ∈ l, e = .valueError c := by
  induction l with
  | nil => exact absurd h (by simp [List.mapM, List.mapM.loop, pure, Except.pure])
  | cons a as ih =>
    rw [List.mapM_cons] at h
    rcases int2_ok_or_error a with ⟨v, hia⟩ | hia
    · rw [hia] at h
      cases hmas : as.mapM int2 with
      | error e' =>
        rw [hmas] at h
        simp only [bind, Except.bind] at h
        injection h with he
        subst he
        obtain ⟨c, hc, he'⟩ := ih hmas
        exact ⟨c, List.mem_cons_of_mem _ hc, he'⟩
      | ok xs =>
        rw [hmas] at h
        simp [bind, Except.bind, pure, Except.pure] at h
    · rw [hia] at h
      simp only [bind, Except.bind] at h
      injection h with he
      exact ⟨a, List.mem_cons_self a as, he.symm⟩

/-- The conversion succeeds on binary strings, preserving the length. -/
theorem mapM_int2_ok (l : List Char) (h : ∀ c ∈ l, c = '0' ∨ c = '1') :
    ∃ bits, l.mapM int2 = .ok bits ∧ bits.length = l.length := by
  induction l with
  | nil => exact ⟨[], rfl, rfl⟩
  | cons a as ih =>
    obtain ⟨bits, hb, hlen⟩ := ih fun c hc => h c (List.mem_cons_of_mem a hc)
    have hia : int2 a = .ok (if a = '0' then 0 else 1) := by
      rcases h a (List.mem_cons_self a as) with rfl | rfl <;> decide
    refine ⟨(if a = '0' then 0 else 1) :: bits, ?_, by simp [hlen]⟩
    rw [List.mapM_cons, hia]
    simp only [bind, Except.bind]
    rw [hb]
    rfl

/-- A character the conversion rejects makes the whole conversion fail with
the `ValueError` of some rejected character of the input. -/
theorem mapM_int2_error_of_bad (l : List Char)
    (hbad : ∃ c ∈ l, int2 c = .error (.valueError c)) :
    ∃ ch ∈ l, int2 ch = .error (.valueError ch) ∧
      l.mapM int2 = .error (.valueError ch) := by
  induction l with
  | nil => simp at hbad
  | cons a as ih =>
    rcases int2_ok_or_error a with ⟨v, hia⟩ | hia
    · obtain ⟨c, hc, hcerr⟩ := hbad
      have hcas : c ∈ as := by
        rcases List.mem_cons.mp hc with rfl | hm
        · rw [hia] at hcerr
          exact Except.noConfusion hcerr
        · exact hm
      obtain ⟨ch, hch, cherr, herr⟩ := ih ⟨c, hcas, hcerr⟩
      refine ⟨ch, List.mem_cons_of_mem a hch, cherr, ?_⟩
      rw [List.mapM_cons, hia]
      simp only [bind, Except.bind]
      rw [herr]
    · refine ⟨a, List.mem_cons_self a as, hia, ?_⟩
      rw [List.mapM_cons, hia]
      simp only [bind, Except.bind]

/-- Odd length: the assertion fires before conversion or construction. -/
theorem superdense_coder_odd (bitstring : List Char)
    (h : bitstring.length % 2 = 1) :
    superdense_coder bitstring = .error .assertionError := by
  unfold superdense_coder
  rw [if_pos (by omega)]

/-- Even length, failing conversion: the error propagates as the result. -/
theorem superdense_coder_even_error (bitstring : List Char) (e : PyErr)
    (hpar : bitstring.length % 2 = 0) (hm : bitstring.mapM int2 = .error e) :
    superdense_coder bitstring = .error e := by
  unfold superdense_coder
  rw [if_neg (by omega), hm]
  rfl

/-- Even length, successful conversion: a circuit is returned. -/
theorem superdense_coder_even_ok (bitstring : List Char) (bits : List Nat)
    (hpar : bitstring.length % 2 = 0) (hm : bitstring.mapM int2 = .ok bits) :
    ∃ circ, superdense_coder bitstring = .ok circ := by
  unfold superdense_coder
  rw [if_neg (by omega), hm]
  exact ⟨_, rfl⟩

/-- C4 (amended): `superdense_coder` aborts with the assertion failure
exactly on odd-length inputs, and the assertion precedes parsing and circuit
construction; every even-length input over `{'0', '1'}` passes the
precondition and construction proceeds to return a circuit.  (Failure is
nevertheless not equivalent to odd length: some even-length inputs, such as
`"0a"`, abort with a `ValueError` from the base-2 conversion instead.) -/
theorem superdense_coder_even_precondition :
    ∀ (bitstring : List Char),
      (superdense_coder bitstring = .error .assertionError ↔
        bitstring.length % 2 = 1) ∧
      (bitstring.length % 2 = 0 → (∀ c ∈ bitstring, c = '0' ∨ c = '1') →
        ∃ circ, superdense_coder bitstring = .ok circ) := by
  intro bitstring
  constructor
  · constructor
    · intro h
      by_contra hodd
      have hpar : bitstring.length % 2 = 0 := by omega
      cases hm : bitstring.mapM int2 with
      | error e =>
        rw [superdense_coder_even_error bitstring e hpar hm] at h
        injection h with he
        obtain ⟨c, _, he'⟩ := mapM_int2_error bitstring e hm
        rw [he] at he'
        exact PyErr.noConfusion he'
      | ok bits =>
        obtain ⟨circ, hc⟩ := superdense_coder_even_ok bitstring bits hpar hm
        rw [hc] at h
        exact Except.noConfusion h
    · exact superdense_coder_odd bitstring
  · intro hpar hbin
    obtain ⟨bits, hm, _⟩ := mapM_int2_ok bitstring hbin
    exact superdense_coder_even_ok bitstring bits hpar hm

/-- Witness for C4 (amended) at the even binary input `"01"`. -/
theorem superdense_coder_even_precondition_witness :
    ∃ circ, superdense_coder ['0', '1'] = .ok circ :=
  (superdense_coder_even_precondition ['0', '1']).2 (by decide) (by decide)

/-- Counterexample to C4 as stated: the even-length input `"0a"` also makes
`superdense_coder` fail (with a `ValueError` from the base-2 conversion), so
construction failure is not equivalent to odd input length. -/
theorem superdense_coder_fails_on_even_input :
    (['0', 'a'] : List Char).length % 2 = 0 ∧
    superdense_coder ['0', 'a'] = .error (.valueError 'a') := by
  exact ⟨rfl, rfl⟩

/-- Counterexample to C10 as stated: `int(i, 2)` accepts every Unicode
decimal digit of value 0 or 1, so the even-length input `"0١"` (whose second
character is U+0661, the Arabic-Indic digit one — a character other than
`'0'` and `'1'`) converts successfully and `superdense_coder` returns a
circuit instead of raising an error. -/
theorem superdense_coder_accepts_unicode_digit :
    ('١' ≠ '0' ∧ '١' ≠ '1') ∧
    (['0', '١'] : List Char).length % 2 = 0 ∧
    ∃ circ, superdense_coder ['0', '١'] = .ok circ :=
  ⟨by decide, by decide, ⟨_, rfl⟩⟩

/-- C10 (amended): every even-length input containing a character that the
per-character base-2 conversion rejects (i.e. not a Unicode decimal digit of
value 0 or 1) makes `superdense_coder` raise that conversion's `ValueError`,
naming some rejected character — which is in particular neither `'0'` nor
`'1'` — before any circuit is constructed; so the even-length precondition
is not the only input check that can abort construction. -/
theorem superdense_coder_nonbinary_error :
    ∀ (bitstring : List Char), bitstring.length % 2 = 0 →
      (∃ c ∈ bitstring, int2 c = .error (.valueError c)) →
      ∃ ch ∈ bitstring, ch ≠ '0' ∧ ch ≠ '1' ∧
        int2 ch = .error (.valueError ch) ∧
        superdense_coder bitstring = .error (.valueError ch) := by
  intro bitstring hpar hbad
  obtain ⟨ch, hch, cherr, herr⟩ := mapM_int2_error_of_bad bitstring hbad
  obtain ⟨h0, h1⟩ := int2_error_not_binary ch _ cherr
  exact ⟨ch, hch, h0, h1, cherr,
    superdense_coder_even_error bitstring _ hpar herr⟩

/-- Witness for C10 (amended) at the even-length input `"0a"`. -/
theorem superdense_coder_nonbinary_error_witness :
    ∃ ch ∈ (['0', 'a'] : List Char), ch ≠ '0' ∧ ch ≠ '1' ∧
      int2 ch = .error (.valueError ch) ∧
      superdense_coder ['0', 'a'] = .error (.valueError ch) :=
  superdense_coder_nonbinary_error ['0', 'a'] (by decide) (by decide)

/-! Shape of the circuit built by `superdense_coder`. -/

/-- Appending form: `encode_bits` only appends: it is the old circuit followed by the gates
selected by the two bits. -/
theorem encode_bits_eq_append (circuit : List Gate) (q : Nat) (b0 b1 : Bool) :
    encode_bits circuit q b0 b1 = circuit ++ encTail q b0 b1 := by
  cases b0 <;> cases b1 <;> simp [encode_bits, encTail]

/-- A left fold that appends `t a` per element is the accumulator followed by
the concatenation of the `t a`. -/
theorem foldl_append_flatMap {α : Type} (t : α → List Gate) (l : List α)
    (c : List Gate) :
    l.foldl (fun acc a => acc ++ t a) c = c ++ l.flatMap t := by
  induction l generalizing c with
  | nil => simp
  | cons a l ih =>
    rw [List.foldl_cons, ih]
    simp [List.append_assoc]

/-- Length rule: `reshapePairs` produces one pair per two elements. -/
theorem reshapePairs_length : ∀ l : List Nat,
    (reshapePairs l).length = l.length / 2
  | [] => rfl
  | [_] => by simp [reshapePairs]
  | _ :: _ :: rest => by
    simp only [reshapePairs, List.length_cons, reshapePairs_length rest]
    omega

/-- Every gate of the encode segment is an `X` or a `Z` on the pair index of
one of the encoded bit pairs. -/
theorem mem_enc_flatMap (l : List (Nat × (Nat × Nat))) (g : Gate)
    (hg : g ∈ l.flatMap fun p => encTail p.1 (p.2.1 != 0) (p.2.2 != 0)) :
    ∃ p ∈ l, g = Gate.x p.1 ∨ g = Gate.z p.1 := by
  rw [List.mem_flatMap] at hg
  obtain ⟨p, hp, hgp⟩ := hg
  refine ⟨p, hp, ?_⟩
  unfold encTail at hgp
  rcases hb0 : (p.2.1 != 0) <;> rcases hb1 : (p.2.2 != 0) <;>
    rw [hb0, hb1] at hgp <;> simp at hgp <;> tauto

/-- The circuit built on a successfully converted even-length input, written
as explicit segments: Bell preparations, barrier, encode gates, barrier,
decode gates, final measurement. -/
theorem superdense_coder_ok_decomp (bitstring : List Char) (bits : List Nat)
    (hpar : bitstring.length % 2 = 0) (hm : bitstring.mapM int2 = .ok bits) :
    superdense_coder bitstring = .ok ⟨2 * (bits.length / 2),
      ((List.range (bits.length / 2)).flatMap
          fun i => [Gate.h i, Gate.cx i (i + bits.length / 2)])
        ++ [Gate.barrier]
        ++ ((reshapePairs bits).enum.flatMap
          fun p => encTail p.1 (p.2.1 != 0) (p.2.2 != 0))
        ++ [Gate.barrier]
        ++ ((List.range (bits.length / 2)).flatMap
          fun i => [Gate.cx i (i + bits.length / 2), Gate.h i])
        ++ [Gate.measureAll]⟩ := by
  unfold superdense_coder
  rw [if_neg (by omega), hm]
  simp only [bind, Except.bind, prepare_bell_state, decode_bits,
    encode_bits_eq_append, foldl_append_flatMap]
  simp [List.append_assoc]

/-- C7: the encode step touches carrier A only.  Every gate appended by an
`encode_bits` call acts on the single qubit `q` it was given, and in every
circuit built by `superdense_coder` the segment between the two barriers
(after Bell preparation, before decoding) consists solely of `X`/`Z` gates on
qubits of the `qa` register (indices below `nQubits / 2 = N`), so no gate
there acts on carrier B. -/
theorem encode_touches_only_carrier_A :
    (∀ (circuit : List Gate) (q : Nat) (b0 b1 : Bool),
      ∀ g ∈ (encode_bits circuit q b0 b1).drop circuit.length,
        g = Gate.x q ∨ g = Gate.z q) ∧
    (∀ (bitstring : List Char) (c : Circuit),
      superdense_coder bitstring = .ok c →
      ∃ pre mid post,
        c.gates = pre ++ [Gate.barrier] ++ mid ++ [Gate.barrier] ++ post ∧
        Gate.barrier ∉ mid ∧
        ∀ g ∈ mid, ∃ q', q' < c.nQubits / 2 ∧
          (g = Gate.x q' ∨ g = Gate.z q')) := by
  constructor
  · intro circuit q b0 b1 g hg
    rw [encode_bits_eq_append, List.drop_left] at hg
    unfold encTail at hg
    cases b0 <;> cases b1 <;> simp at hg <;> tauto
  · intro bitstring c hok
    have hpar : bitstring.length % 2 = 0 := by
      by_contra hodd
      rw [superdense_coder_odd bitstring (by omega)] at hok
      exact Except.noConfusion hok
    cases hm : bitstring.mapM int2 with
    | error e =>
      rw [superdense_coder_even_error bitstring e hpar hm] at hok
      exact Except.noConfusion hok
    | ok bits =>
      rw [superdense_coder_ok_decomp bitstring bits hpar hm] at hok
      injection hok with hc
      subst hc
      refine ⟨(List.range (bits.length / 2)).flatMap
          fun i => [Gate.h i, Gate.cx i (i + bits.length / 2)],
        (reshapePairs bits).enum.flatMap
          fun p => encTail p.1 (p.2.1 != 0) (p.2.2 != 0),
        ((List.range (bits.length / 2)).flatMap
          fun i => [Gate.cx i (i + bits.length / 2), Gate.h i])
          ++ [Gate.measureAll], ?_, ?_, ?_⟩
      · simp [List.append_assoc]
      · intro hbar
        obtain ⟨p, _, hxz⟩ := mem_enc_flatMap _ _ hbar
        rcases hxz with h | h <;> exact Gate.noConfusion h
      · intro g hg
        obtain ⟨p, hp, hxz⟩ := mem_enc_flatMap _ g hg
        have hlt : p.1 < (reshapePairs bits).length := List.fst_lt_of_mem_enum hp
        have hlen : (reshapePairs bits).length = bits.length / 2 :=
          reshapePairs_length bits
        refine ⟨p.1, ?_, hxz⟩
        show p.1 < 2 * (bits.length / 2) / 2
        omega

/-- Witness for C7's circuit-segment part at the input `"01"`. -/
theorem encode_touches_only_carrier_A_witness :
    ∃ pre mid post,
      (Circuit.mk 2 [Gate.h 0, Gate.cx 0 1, Gate.barrier, Gate.z 0,
        Gate.barrier, Gate.cx 0 1, Gate.h 0, Gate.measureAll]).gates
        = pre ++ [Gate.barrier] ++ mid ++ [Gate.barrier] ++ post ∧
      Gate.barrier ∉ mid ∧
      ∀ g ∈ mid, ∃ q', q' < (Circuit.mk 2 [Gate.h 0, Gate.cx 0 1, Gate.barrier,
        Gate.z 0, Gate.barrier, Gate.cx 0 1, Gate.h 0,
        Gate.measureAll]).nQubits / 2 ∧ (g = Gate.x q' ∨ g = Gate.z q') :=
  encode_touches_only_carrier_A.2 ['0', '1']
    (Circuit.mk 2 [Gate.h 0, Gate.cx 0 1, Gate.barrier, Gate.z 0,
      Gate.barrier, Gate.cx 0 1, Gate.h 0, Gate.measureAll]) rfl

/-- Evaluation rule for `simulate_circuit` once the matching outcomes are
known. -/
theorem simulate_circuit_eval (c : Circuit) (key : List Char) (os : List Nat)
    (hf : ((List.range (2 ^ c.nQubits)).filter
      fun o => canonical_bitstring (measuredChars c.nQubits o) = key) = os) :
    simulate_circuit c key
      = (os.map fun o => outcomeProb c.nQubits c.gates o).sum := by
  unfold simulate_circuit
  rw [hf]

set_option maxRecDepth 40000 in
/-- C8: on input `"001101"`, `superdense_coder` builds a circuit whose
noiseless simulation puts probability 1 on the canonical bitstring
`"001101"` and probability 0 on every other key, so the entire sample count
of any run is concentrated on that single outcome. -/
theorem superdense_coder_001101_deterministic :
    ∃ c, superdense_coder ['0', '0', '1', '1', '0', '1'] = .ok c ∧
      ∀ key : List Char,
        simulate_circuit c key
          = if key = ['0', '0', '1', '1', '0', '1'] then 1 else 0 := by
  refine ⟨Circuit.mk 6 [Gate.h 0, Gate.cx 0 3, Gate.h 1, Gate.cx 1 4, Gate.h 2,
      Gate.cx 2 5, Gate.barrier, Gate.x 1, Gate.z 1, Gate.z 2, Gate.barrier,
      Gate.cx 0 3, Gate.h 0, Gate.cx 1 4, Gate.h 1, Gate.cx 2 5, Gate.h 2,
      Gate.measureAll], rfl, ?_⟩
  intro key
  by_cases hk : key = ['0', '0', '1', '1', '0', '1']
  · subst hk
    rw [if_pos rfl, simulate_circuit_eval _ _ [22] (by decide)]
    simp only [List.map_cons, List.map_nil, List.sum_cons, List.sum_nil,
      add_zero]
    exact outcomeProb_one _ _ _ (by decide) (by decide)
  · rw [if_neg hk]
    apply simulate_circuit_eval _ _ _ rfl |>.trans
    apply List.sum_eq_zero
    intro x hx
    rw [List.mem_map] at hx
    obtain ⟨o, ho, rfl⟩ := hx
    rw [List.mem_filter] at ho
    obtain ⟨hor, hck⟩ := ho
    rw [List.mem_range] at hor
    have hc : canonical_bitstring (measuredChars 6 o) = key :=
      of_decide_eq_true hck
    have hzero : ∀ o : Nat, o < 2 ^ 6 →
        canonical_bitstring (measuredChars 6 o) ≠ ['0', '0', '1', '1', '0', '1'] →
        finalAmp [Gate.h 0, Gate.cx 0 3, Gate.h 1, Gate.cx 1 4, Gate.h 2,
          Gate.cx 2 5, Gate.barrier, Gate.x 1, Gate.z 1, Gate.z 2, Gate.barrier,
          Gate.cx 0 3, Gate.h 0, Gate.cx 1 4, Gate.h 1, Gate.cx 2 5, Gate.h 2,
          Gate.measureAll] o = 0 := by decide
    exact outcomeProb_zero _ _ _ (hzero o hor (by rw [hc]; exact hk))

/-- C9 (code bug): the backend call made by `simulate_circuit` binds
`n_samples` to the positional `validate` parameter of the backend's `run`
and passes no `shots` option, so the backend draws its default 1024 shots
whatever `n_samples` is; in particular the occurrence counts sum to 1024,
not to the default `n_samples = 1000` (the notebook's saved output shows
1024). -/
theorem simulate_circuit_ignores_n_samples :
    ∀ n_samples : Nat,
      aer_run_shots (simulate_circuit_run_args n_samples) = 1024 ∧
      aer_run_shots (simulate_circuit_run_args 1000) ≠ 1000 :=
  fun _ => ⟨rfl, by decide⟩

/-- Witness for C5 at a concrete circuit, qubit and bit pair. -/
theorem encode_bits_gate_selection_witness :
    Gate.x 5 = Gate.x 5 ∨ Gate.x 5 = Gate.z 5 :=
  (encode_bits_gate_selection [Gate.barrier] 5 true true).2.2.1
    (Gate.x 5) (by decide)
